import Mathlib

/-!
Verification of the Nexus retention-policy tool's core engine: a shallow
embedding of the registry data model, the rule configuration, the retention
engine (`processImageGroup`, `groupByImageName`, `Execute`) and the paginated
component fetch (`GetComponents`), together with theorems about the
keep/delete partition, rule matching, audit records and error handling.

Timestamps (`time.Time`) are modelled as natural numbers; the Go zero time is
`0` and `After` is `<`.  A compiled regular expression is abstracted as a
boolean predicate on image names, with `none` standing for a `nil`
`*regexp.Regexp`.  The remote registry and the deletion outcomes are modelled
by an explicit `World`: a repository-list response, a component-list response
per repository, and a success predicate for delete calls.  The audit sink is
modelled by returning the list of appended records (their wall-clock
timestamp field is omitted: every claim compares records timestamps aside).
-/

namespace NexusRetention

/-- One stored object backing a component (from `nexus.Asset`). -/
structure Asset where
  downloadURL : String
  path : String
  id : String
  repository : String
  format : String
  lastModified : Nat
  deriving DecidableEq, Repr

/-- One tag instance of an image (from `nexus.Component`). -/
structure Component where
  id : String
  repository : String
  format : String
  group : String
  name : String
  version : String
  assets : List Asset
  deriving DecidableEq, Repr

/-- A registry repository (from `nexus.Repository`). -/
structure Repository where
  name : String
  format : String
  type : String
  deriving DecidableEq, Repr

/-- One page of a component listing (from `nexus.ComponentPage`). -/
structure ComponentPage where
  items : List Component
  continuationToken : String
  deriving DecidableEq, Repr

/-- A retention rule (from `config.Rule`).  `compiledRegex` is the compiled
matcher field; `none` models a Go `nil` `*regexp.Regexp` (a rule that was not
prepared by `Load`), `some m` a compiled pattern abstracted as the predicate
`m` on image names. -/
structure Rule where
  name : String
  regex : String
  keep : Nat
  compiledRegex : Option (String → Bool)

/-- The rule-relevant part of `config.Config`: the ordered rule list and the
protected-tag list. -/
structure Config where
  rules : List Rule
  protectedTags : List String

/-- `Rule.Matches`: returns `false` on a `nil` compiled regex, otherwise
applies the matcher. -/
def Rule.Matches (r : Rule) (imageName : String) : Bool :=
  match r.compiledRegex with
  | none => false
  | some m => m imageName

/-- `Config.IsProtected`: linear scan of the protected-tag list for an exact
string match. -/
def Config.IsProtected (c : Config) (tag : String) : Bool :=
  c.protectedTags.any (fun p => p = tag)

/-- The loop body of `Config.GetKeepCount`: scan the rules in order and return
the first match's keep-count and name, else `(0, "", false)`. -/
def getKeepCountList : List Rule → String → Nat × String × Bool
  | [], _ => (0, "", false)
  | r :: rest, imageName =>
    if r.Matches imageName then (r.keep, r.name, true)
    else getKeepCountList rest imageName

/-- `Config.GetKeepCount`. -/
def Config.GetKeepCount (c : Config) (imageName : String) : Nat × String × Bool :=
  getKeepCountList c.rules imageName

/-- An audit entry (from `logger.DeletionRecord`); the wall-clock timestamp
field is omitted, all claims compare records timestamps aside. -/
structure DeletionRecord where
  repository : String
  imageName : String
  tag : String
  componentID : String
  rule : String
  dryRun : Bool
  deriving DecidableEq, Repr

/-- The fold inside `getLastModified`: start from the first asset's timestamp
and take any strictly later (`After`) one. -/
def maxLastModified (first : Nat) (assets : List Asset) : Nat :=
  assets.foldl
    (fun latest asset =>
      if latest < asset.lastModified then asset.lastModified else latest)
    first

/-- `PolicyEngine.getLastModified`: the effective recency of a component; the
zero time for a component with no assets, otherwise the maximum
`lastModified` over all assets. -/
def getLastModified (comp : Component) : Nat :=
  match comp.assets with
  | [] => 0
  | a :: rest => maxLastModified a.lastModified (a :: rest)

/-- The ordering used by the engine's `sort.Slice` call: `a` before `b` when
`a` is at least as recent (descending effective recency). -/
def recencyOrder (a b : Component) : Prop :=
  getLastModified b ≤ getLastModified a

instance : DecidableRel recencyOrder := fun a b =>
  Nat.decLe (getLastModified b) (getLastModified a)

instance : IsTotal Component recencyOrder :=
  ⟨fun a b => Nat.le_total (getLastModified b) (getLastModified a)⟩

instance : IsTrans Component recencyOrder :=
  ⟨fun _ _ _ h1 h2 => le_trans h2 h1⟩

/-- The `sort.Slice` call in `processImageGroup`: sort the group by effective
recency, most recent first. -/
def sortByRecency (comps : List Component) : List Component :=
  List.insertionSort recencyOrder comps

/-- The protected side of the partition-by-protection loop in
`processImageGroup` (components whose tag is in the protected-tag list). -/
def protectedOf (c : Config) (comps : List Component) : List Component :=
  comps.filter (fun comp => c.IsProtected comp.version)

/-- The regular (non-protected) side of the partition-by-protection loop in
`processImageGroup`. -/
def regularOf (c : Config) (comps : List Component) : List Component :=
  comps.filter (fun comp => !c.IsProtected comp.version)

/-- The kept slice of the keep/delete split: the first `keepCount` regular
components when there are more than `keepCount`, else all of them. -/
def toKeepOf (keepCount : Nat) (regular : List Component) : List Component :=
  if keepCount < regular.length then regular.take keepCount else regular

/-- The delete slice of the keep/delete split: everything past the first
`keepCount` regular components, empty when there are at most `keepCount`. -/
def toDeleteOf (keepCount : Nat) (regular : List Component) : List Component :=
  if keepCount < regular.length then regular.drop keepCount else []

/-- The audit record built by the `logger.LogDeletion` call site in
`processImageGroup`. -/
def mkRecord (repoName imageName ruleName : String) (dryRun : Bool)
    (comp : Component) : DeletionRecord :=
  { repository := repoName
    imageName := imageName
    tag := comp.version
    componentID := comp.id
    rule := ruleName
    dryRun := dryRun }

/-- The deletion loop of `processImageGroup` over the delete slice.  In dry-run
mode every item is counted and logged; in execute mode a failed delete call
(`deleteOk comp.id = false`) hits `continue`, so the item is neither counted
nor logged.  Returns the deleted tally and the appended audit records in
order. -/
def deleteLoop (dryRun : Bool) (deleteOk : String → Bool)
    (repoName imageName ruleName : String) :
    List Component → Nat × List DeletionRecord
  | [] => (0, [])
  | comp :: rest =>
    let acc := deleteLoop dryRun deleteOk repoName imageName ruleName rest
    if dryRun then
      (acc.1 + 1, mkRecord repoName imageName ruleName dryRun comp :: acc.2)
    else if deleteOk comp.id then
      (acc.1 + 1, mkRecord repoName imageName ruleName dryRun comp :: acc.2)
    else acc

/-- `PolicyEngine.processImageGroup`: empty groups and groups matching no rule
are skipped; otherwise sort by recency, partition by protection, split the
regular components at the keep-count, count protected and kept components as
kept, and run the deletion loop over the delete slice.  Returns
`(deleted, kept, audit records)`. -/
def processImageGroup (cfg : Config) (dryRun : Bool) (deleteOk : String → Bool)
    (repoName imageName : String) (components : List Component) :
    Nat × Nat × List DeletionRecord :=
  if components.isEmpty then (0, 0, [])
  else
    let res := cfg.GetKeepCount imageName
    if !res.2.2 then (0, 0, [])
    else
      let sorted := sortByRecency components
      let protectedComps := protectedOf cfg sorted
      let regularComps := regularOf cfg sorted
      let toKeep := toKeepOf res.1 regularComps
      let toDelete := toDeleteOf res.1 regularComps
      let kept := protectedComps.length + toKeep.length
      let del := deleteLoop dryRun deleteOk repoName imageName res.2.1 toDelete
      (del.1, kept, del.2)

/-- One step of collecting the Go map's keys: add a component's name unless
already present. -/
def groupKeysStep (ks : List String) (comp : Component) : List String :=
  if comp.name ∈ ks then ks else ks ++ [comp.name]

/-- The keys of the Go map built by `groupByImageName`, in order of first
appearance in the component list. -/
def groupKeys (components : List Component) : List String :=
  components.foldl groupKeysStep []

/-- `PolicyEngine.groupByImageName` as an association list: the Go map sends
each image name to the input components with that `Name`, appended in input
order; keys are listed in first-appearance order. -/
def groupByImageName (components : List Component) :
    List (String × List Component) :=
  (groupKeys components).map
    (fun k => (k, components.filter (fun comp => comp.name = k)))

/-- The per-repository group loop of `Execute`, with the Go map iteration
order made explicit as `keyOrder` (Go randomizes it): process each image
group in that order and accumulate `(deleted, kept, audit records)`. -/
def processGroups (cfg : Config) (dryRun : Bool) (deleteOk : String → Bool)
    (repoName : String) (components : List Component)
    (keyOrder : List String) : Nat × Nat × List DeletionRecord :=
  keyOrder.foldl
    (fun acc k =>
      let res := processImageGroup cfg dryRun deleteOk repoName k
        (components.filter (fun comp => comp.name = k))
      (acc.1 + res.1, acc.2.1 + res.2.1, acc.2.2 ++ res.2.2))
    (0, 0, [])

/-- The external world one run observes: the repository-list response, the
component-list response per repository name, and which delete calls succeed. -/
structure World where
  repoList : Except String (List Repository)
  componentsOf : String → Except String (List Component)
  deleteOk : String → Bool

/-- `Client.GetDockerRepositories`: propagate a listing failure, otherwise
keep only docker-format hosted repositories (the endpoint is read in a single
page). -/
def GetDockerRepositories (w : World) : Except String (List Repository) :=
  match w.repoList with
  | .error e => .error e
  | .ok repos =>
    .ok (repos.filter (fun r => r.format = "docker" && r.type = "hosted"))

/-- `PolicyEngine.Execute`: fail only when the repository listing fails;
otherwise fold over the repositories, skipping any whose component listing
fails, and accumulate `(total deleted, total kept, audit records)` processing
each repository's groups in first-appearance key order. -/
def Execute (cfg : Config) (dryRun : Bool) (w : World) :
    Except String (Nat × Nat × List DeletionRecord) :=
  match GetDockerRepositories w with
  | .error e => .error ("failed to get repositories: " ++ e)
  | .ok repos =>
    .ok (repos.foldl
      (fun acc repo =>
        match w.componentsOf repo.name with
        | .error _ => acc
        | .ok comps =>
          let res := processGroups cfg dryRun w.deleteOk repo.name comps
            (groupKeys comps)
          (acc.1 + res.1, acc.2.1 + res.2.1, acc.2.2 ++ res.2.2))
      (0, 0, []))

/-- `Client.GetComponents`, driven by the sequence of server responses to the
successive page requests (the first request carries no token, each later one
the previous response's continuation token): append each page's items, stop
at the first empty continuation token, and abort with the error of any
failing page. -/
def GetComponents : List (Except String ComponentPage) →
    Except String (List Component)
  | [] => .error "request failed: no response"
  | .error e :: _ => .error e
  | .ok page :: rest =>
    if page.continuationToken = "" then .ok page.items
    else
      match GetComponents rest with
      | .error e => .error e
      | .ok comps => .ok (page.items ++ comps)

/-! ### Concrete fixtures used by witnesses and counterexamples -/

/-- A rule matching the two `prod-` image names of the fixtures. -/
def ruleProd : Rule :=
  { name := "prod", regex := "^prod-.*", keep := 2,
    compiledRegex := some (fun s => s = "prod-app" || s = "prod-db") }

/-- A catch-all rule. -/
def ruleAll : Rule :=
  { name := "all", regex := ".*", keep := 5,
    compiledRegex := some (fun _ => true) }

/-- A rule whose compiled regex is `nil` (never prepared by `Load`). -/
def ruleNil : Rule :=
  { name := "broken", regex := "(", keep := 3, compiledRegex := none }

/-- Two ordered rules with `latest` protected. -/
def cfgPA : Config := { rules := [ruleProd, ruleAll], protectedTags := ["latest"] }

/-! ### Rule matching lemmas -/

theorem getKeepCountList_append_no_match (pre rest : List Rule)
    (imageName : String) (h : ∀ p ∈ pre, p.Matches imageName = false) :
    getKeepCountList (pre ++ rest) imageName = getKeepCountList rest imageName := by
  induction pre with
  | nil => rfl
  | cons r pre ih =>
    have hr := h r (List.mem_cons_self r pre)
    have hrest : ∀ p ∈ pre, p.Matches imageName = false := fun p hp =>
      h p (List.mem_cons_of_mem r hp)
    simp [getKeepCountList, hr, ih hrest]

theorem getKeepCountList_no_match (rules : List Rule) (imageName : String)
    (h : ∀ p ∈ rules, p.Matches imageName = false) :
    getKeepCountList rules imageName = (0, "", false) := by
  induction rules with
  | nil => rfl
  | cons r rest ih =>
    have hr := h r (List.mem_cons_self r rest)
    have hrest : ∀ p ∈ rest, p.Matches imageName = false := fun p hp =>
      h p (List.mem_cons_of_mem r hp)
    simp [getKeepCountList, hr, ih hrest]

theorem getKeepCountList_matched_rule (rules : List Rule) (imageName : String)
    (keep : Nat) (ruleName : String)
    (h : getKeepCountList rules imageName = (keep, ruleName, true)) :
    ∃ ru ∈ rules, ru.compiledRegex.isSome = true ∧ ru.Matches imageName = true
      ∧ keep = ru.keep ∧ ruleName = ru.name := by
  induction rules with
  | nil => simp [getKeepCountList] at h
  | cons ru rest ih =>
    by_cases hm : ru.Matches imageName
    · have hsome : ru.compiledRegex.isSome = true := by
        cases hreg : ru.compiledRegex with
        | none => simp [Rule.Matches, hreg] at hm
        | some m => simp
      simp only [getKeepCountList, hm, if_pos] at h
      have h1 : ru.keep = keep := congrArg Prod.fst h
      have h2 : ru.name = ruleName := congrArg (fun t => t.2.1) h
      exact ⟨ru, List.mem_cons_self ru rest, hsome, hm, h1.symm, h2.symm⟩
    · simp only [getKeepCountList, hm, if_neg, Bool.false_eq_true,
        not_false_eq_true] at h
      obtain ⟨ru', hmem, hsome, hmatch, hk, hn⟩ := ih h
      exact ⟨ru', List.mem_cons_of_mem ru hmem, hsome, hmatch, hk, hn⟩

/-- Claim C1: rule evaluation is first-match-wins: if the configured rule list
is `pre ++ r :: mid ++ r' :: post` with no rule of `pre` matching and `r`
matching (so the image name matches positions `i < j` with `r` first), the
returned keep-count and rule name are `r`'s, never `r'`'s; and if no rule
matches, the group is skipped with zero keeps, zero deletions and no audit
records. -/
theorem getKeepCount_first_match_wins (cfg : Config) (imageName : String) :
    (∀ pre r mid r' post, cfg.rules = pre ++ (r :: (mid ++ r' :: post)) →
      (∀ p ∈ pre, p.Matches imageName = false) →
      r.Matches imageName = true →
      cfg.GetKeepCount imageName = (r.keep, r.name, true))
    ∧ ((∀ p ∈ cfg.rules, p.Matches imageName = false) →
      ∀ dryRun deleteOk repoName comps,
        processImageGroup cfg dryRun deleteOk repoName imageName comps
          = (0, 0, [])) := by
  constructor
  · intro pre r mid r' post hrules hpre hr
    unfold Config.GetKeepCount
    rw [hrules, getKeepCountList_append_no_match pre _ imageName hpre]
    simp [getKeepCountList, hr]
  · intro hnone dryRun deleteOk repoName comps
    have hm : cfg.GetKeepCount imageName = (0, "", false) :=
      getKeepCountList_no_match cfg.rules imageName hnone
    by_cases hc : comps.isEmpty
    · simp [processImageGroup, hc]
    · simp [processImageGroup, hc, hm]

/-- Witness for C1: in `cfgPA` the image `prod-app` matches both rules, and the
result is the first rule's `(2, "prod")`, not the catch-all's. -/
theorem getKeepCount_first_match_wins_witness :
    Config.GetKeepCount cfgPA "prod-app" = (2, "prod", true) :=
  (getKeepCount_first_match_wins cfgPA "prod-app").1 [] ruleProd [] ruleAll []
    rfl (by simp) (by decide)

/-- Claim C10: `Rule.Matches` is total and nil-safe: a rule whose compiled
regex is `none` matches nothing, and whenever `GetKeepCount` reports a match,
the winning rule is one of the configured rules with a compiled (non-nil)
regex that matches the image name. -/
theorem matches_nil_safe (cfg : Config) (r : Rule) (imageName : String) :
    (r.compiledRegex = none → ∀ s, r.Matches s = false)
    ∧ (∀ keep ruleName, cfg.GetKeepCount imageName = (keep, ruleName, true) →
        ∃ ru ∈ cfg.rules, ru.compiledRegex.isSome = true
          ∧ ru.Matches imageName = true ∧ keep = ru.keep ∧ ruleName = ru.name) := by
  constructor
  · intro h s
    simp [Rule.Matches, h]
  · intro keep ruleName h
    exact getKeepCountList_matched_rule cfg.rules imageName keep ruleName h

/-- Witness for C10: the nil-regex rule matches nothing, and `cfgPA`'s match
for `prod-app` comes from a rule with a compiled regex. -/
theorem matches_nil_safe_witness :
    Rule.Matches ruleNil "anything" = false
    ∧ ∃ ru ∈ cfgPA.rules, ru.compiledRegex.isSome = true
        ∧ ru.Matches "prod-app" = true ∧ 2 = ru.keep ∧ "prod" = ru.name :=
  ⟨(matches_nil_safe cfgPA ruleNil "anything").1 rfl "anything",
   (matches_nil_safe cfgPA ruleNil "prod-app").2 2 "prod" (by decide)⟩

/-! ### Further fixtures: components of the image `prod-app` -/

/-- Build a component of repository `docker-hosted` with one asset per given
timestamp. -/
def mkComp (i nm version : String) (ts : List Nat) : Component :=
  { id := i, repository := "docker-hosted", format := "docker", group := "",
    name := nm, version := version,
    assets := ts.map (fun t =>
      { downloadURL := "", path := "", id := i ++ "-a",
        repository := "docker-hosted", format := "docker",
        lastModified := t }) }

def compV1 : Component := mkComp "c1" "prod-app" "v1" [100]

def compV2 : Component := mkComp "c2" "prod-app" "v2" [200]

def compV3 : Component := mkComp "c3" "prod-app" "v3" [300]

/-- A protected, zero-asset component (tag `latest`). -/
def compLatest : Component := mkComp "c0" "prod-app" "latest" []

/-- A single catch-all rule keeping one component, nothing protected. -/
def cfgOne : Config :=
  { rules := [{ name := "one", regex := ".*", keep := 1,
                compiledRegex := some (fun _ => true) }],
    protectedTags := [] }

/-! ### Deletion-loop and partition lemmas -/

theorem deleteLoop_spec (dryRun : Bool) (deleteOk : String → Bool)
    (repoName imageName ruleName : String) (comps : List Component) :
    deleteLoop dryRun deleteOk repoName imageName ruleName comps
      = ((comps.filter (fun c => dryRun || deleteOk c.id)).length,
         (comps.filter (fun c => dryRun || deleteOk c.id)).map
           (mkRecord repoName imageName ruleName dryRun)) := by
  induction comps with
  | nil => rfl
  | cons c rest ih =>
    cases hd : dryRun with
    | true =>
      rw [hd] at ih
      simp [deleteLoop, ih, List.filter_cons]
    | false =>
      rw [hd] at ih
      cases hok : deleteOk c.id with
      | true => simp [deleteLoop, ih, hok, List.filter_cons]
      | false => simp [deleteLoop, ih, hok, List.filter_cons]

/-- Unfolding of `processImageGroup` on a nonempty group with a matched rule. -/
theorem processImageGroup_eq (cfg : Config) (dryRun : Bool)
    (deleteOk : String → Bool) (repoName imageName : String)
    (comps : List Component) (hne : comps.isEmpty = false)
    (hm : (cfg.GetKeepCount imageName).2.2 = true) :
    processImageGroup cfg dryRun deleteOk repoName imageName comps
      = ((deleteLoop dryRun deleteOk repoName imageName
            (cfg.GetKeepCount imageName).2.1
            (toDeleteOf (cfg.GetKeepCount imageName).1
              (regularOf cfg (sortByRecency comps)))).1,
         (protectedOf cfg (sortByRecency comps)).length
           + (toKeepOf (cfg.GetKeepCount imageName).1
               (regularOf cfg (sortByRecency comps))).length,
         (deleteLoop dryRun deleteOk repoName imageName
            (cfg.GetKeepCount imageName).2.1
            (toDeleteOf (cfg.GetKeepCount imageName).1
              (regularOf cfg (sortByRecency comps)))).2) := by
  simp [processImageGroup, hne, hm]

theorem toKeep_toDelete_length (keep : Nat) (reg : List Component) :
    (toKeepOf keep reg).length + (toDeleteOf keep reg).length = reg.length := by
  unfold toKeepOf toDeleteOf
  split
  · simp only [List.length_take, List.length_drop]
    omega
  · simp

theorem protected_regular_length (cfg : Config) (l : List Component) :
    (protectedOf cfg l).length + (regularOf cfg l).length = l.length := by
  have h :=
    (List.filter_append_perm (fun comp => cfg.IsProtected comp.version) l).length_eq
  simpa [protectedOf, regularOf] using h

theorem toDeleteOf_mem_regular (keep : Nat) (reg : List Component) :
    ∀ c ∈ toDeleteOf keep reg, c ∈ reg := by
  intro c hc
  unfold toDeleteOf at hc
  split at hc
  · exact List.drop_subset _ _ hc
  · simp at hc

theorem toDeleteOf_not_protected (cfg : Config) (keep : Nat)
    (l : List Component) :
    ∀ c ∈ toDeleteOf keep (regularOf cfg l),
      cfg.IsProtected c.version = false := by
  intro c hc
  have hreg : c ∈ regularOf cfg l := toDeleteOf_mem_regular keep _ c hc
  have h := (List.mem_filter.mp hreg).2
  simpa using h

theorem toDeleteOf_mem_comps (cfg : Config) (keep : Nat)
    (comps : List Component) :
    ∀ c ∈ toDeleteOf keep (regularOf cfg (sortByRecency comps)), c ∈ comps := by
  intro c hc
  have hreg := toDeleteOf_mem_regular keep _ c hc
  have hs : c ∈ sortByRecency comps := (List.mem_filter.mp hreg).1
  exact (List.perm_insertionSort recencyOrder comps).mem_iff.mp hs

theorem deleteLoop_count_all_ok (dryRun : Bool) (deleteOk : String → Bool)
    (repoName imageName ruleName : String) (l : List Component)
    (hok : dryRun = true ∨ ∀ c ∈ l, deleteOk c.id = true) :
    (deleteLoop dryRun deleteOk repoName imageName ruleName l).1 = l.length := by
  rw [deleteLoop_spec]
  have hf : l.filter (fun c => dryRun || deleteOk c.id) = l := by
    apply List.filter_eq_self.mpr
    intro a ha
    rcases hok with h | h
    · simp [h]
    · simp [h a ha]
  simp [hf]

/-- Counterexample to claim C2 as stated: a group made of one protected
component has `kept = 1` and `deleted = 0`, while it has zero regular
components, so `kept + deleted` is not the number of regular components. -/
theorem kept_plus_deleted_ne_regular_cex :
    (processImageGroup cfgPA true (fun _ => true) "docker-hosted" "prod-app"
        [compLatest]).2.1
      + (processImageGroup cfgPA true (fun _ => true) "docker-hosted" "prod-app"
        [compLatest]).1
      ≠ (regularOf cfgPA (sortByRecency [compLatest])).length := by decide

/-- Claim C2 (amended): for every group processed with a matching rule, with
all deletions succeeding or in simulate mode, `kept + deleted` equals the
TOTAL number of components in the group — the regular ones plus the protected
ones, since the code counts every protected component as kept — and no
protected component ever appears in the delete slice. -/
theorem processImageGroup_partition_counts (cfg : Config) (dryRun : Bool)
    (deleteOk : String → Bool) (repoName imageName : String)
    (comps : List Component)
    (hm : (cfg.GetKeepCount imageName).2.2 = true)
    (hok : dryRun = true ∨ ∀ c ∈ comps, deleteOk c.id = true) :
    (processImageGroup cfg dryRun deleteOk repoName imageName comps).2.1
        + (processImageGroup cfg dryRun deleteOk repoName imageName comps).1
      = comps.length
    ∧ (processImageGroup cfg dryRun deleteOk repoName imageName comps).2.1
      = (protectedOf cfg (sortByRecency comps)).length
        + (toKeepOf (cfg.GetKeepCount imageName).1
            (regularOf cfg (sortByRecency comps))).length
    ∧ ∀ c ∈ toDeleteOf (cfg.GetKeepCount imageName).1
          (regularOf cfg (sortByRecency comps)),
        cfg.IsProtected c.version = false := by
  cases hE : comps.isEmpty with
  | true =>
    have hc : comps = [] := by simpa using hE
    subst hc
    refine ⟨by simp [processImageGroup], ?_, ?_⟩
    · simp [processImageGroup, sortByRecency, List.insertionSort, protectedOf,
        regularOf, toKeepOf]
    · intro c hc
      simp [sortByRecency, List.insertionSort, regularOf, toDeleteOf] at hc
  | false =>
    have heq := processImageGroup_eq cfg dryRun deleteOk repoName imageName
      comps hE hm
    rw [heq]
    have hokd : dryRun = true
        ∨ ∀ c ∈ toDeleteOf (cfg.GetKeepCount imageName).1
            (regularOf cfg (sortByRecency comps)), deleteOk c.id = true := by
      rcases hok with h | h
      · exact Or.inl h
      · exact Or.inr fun c hc =>
          h c (toDeleteOf_mem_comps cfg (cfg.GetKeepCount imageName).1 comps c hc)
    have hdel := deleteLoop_count_all_ok dryRun deleteOk repoName imageName
      (cfg.GetKeepCount imageName).2.1
      (toDeleteOf (cfg.GetKeepCount imageName).1
        (regularOf cfg (sortByRecency comps))) hokd
    have h1 := toKeep_toDelete_length (cfg.GetKeepCount imageName).1
      (regularOf cfg (sortByRecency comps))
    have h2 := protected_regular_length cfg (sortByRecency comps)
    have h3 : (sortByRecency comps).length = comps.length :=
      (List.perm_insertionSort recencyOrder comps).length_eq
    refine ⟨?_, rfl, toDeleteOf_not_protected cfg _ _⟩
    simp only [hdel]
    omega

/-- Witness for C2 (amended): the group `[v3, v2, v1, latest]` under `cfgPA`
(keep 2, `latest` protected) has `kept + deleted = 4`, kept splits into one
protected plus two regular, and nothing protected is in the delete slice. -/
theorem processImageGroup_partition_counts_witness :
    (processImageGroup cfgPA true (fun _ => true) "docker-hosted" "prod-app"
        [compV3, compV2, compV1, compLatest]).2.1
        + (processImageGroup cfgPA true (fun _ => true) "docker-hosted"
            "prod-app" [compV3, compV2, compV1, compLatest]).1
      = 4
    ∧ (processImageGroup cfgPA true (fun _ => true) "docker-hosted" "prod-app"
        [compV3, compV2, compV1, compLatest]).2.1
      = (protectedOf cfgPA
          (sortByRecency [compV3, compV2, compV1, compLatest])).length
        + (toKeepOf (Config.GetKeepCount cfgPA "prod-app").1
            (regularOf cfgPA
              (sortByRecency [compV3, compV2, compV1, compLatest]))).length
    ∧ ∀ c ∈ toDeleteOf (Config.GetKeepCount cfgPA "prod-app").1
          (regularOf cfgPA
            (sortByRecency [compV3, compV2, compV1, compLatest])),
        cfgPA.IsProtected c.version = false :=
  processImageGroup_partition_counts cfgPA true (fun _ => true) "docker-hosted"
    "prod-app" [compV3, compV2, compV1, compLatest] (by decide) (Or.inl rfl)

/-- Counterexample to claim C3 as stated: in execute mode with the delete call
failing, the single deletion decision (`v1` is in the delete slice) appends no
audit record at all, not exactly one. -/
theorem failed_delete_appends_no_record_cex :
    toDeleteOf 1 (regularOf cfgOne (sortByRecency [compV1, compV2]))
      = [compV1]
    ∧ (processImageGroup cfgOne false (fun _ => false) "docker-hosted"
        "prod-app" [compV1, compV2]).2.2 = [] := by decide

/-- Claim C3 (amended): the audit records of a group are exactly one record —
capturing repository, image name, tag, component id, matched rule name and
the simulate flag — per deletion decision that is simulated or whose delete
call succeeds; a failed delete in execute mode appends no record.  In
particular in simulate mode there is exactly one record per deletion
decision. -/
theorem audit_records_per_decision (cfg : Config) (dryRun : Bool)
    (deleteOk : String → Bool) (repoName imageName : String)
    (comps : List Component)
    (hm : (cfg.GetKeepCount imageName).2.2 = true) :
    (processImageGroup cfg dryRun deleteOk repoName imageName comps).2.2
      = ((toDeleteOf (cfg.GetKeepCount imageName).1
            (regularOf cfg (sortByRecency comps))).filter
          (fun c => dryRun || deleteOk c.id)).map
          (mkRecord repoName imageName (cfg.GetKeepCount imageName).2.1 dryRun)
    ∧ (dryRun = true →
        (processImageGroup cfg dryRun deleteOk repoName imageName comps).2.2
          = (toDeleteOf (cfg.GetKeepCount imageName).1
              (regularOf cfg (sortByRecency comps))).map
              (mkRecord repoName imageName (cfg.GetKeepCount imageName).2.1
                dryRun)) := by
  have hmain :
      (processImageGroup cfg dryRun deleteOk repoName imageName comps).2.2
        = ((toDeleteOf (cfg.GetKeepCount imageName).1
              (regularOf cfg (sortByRecency comps))).filter
            (fun c => dryRun || deleteOk c.id)).map
            (mkRecord repoName imageName (cfg.GetKeepCount imageName).2.1
              dryRun) := by
    cases hE : comps.isEmpty with
    | true =>
      have hc : comps = [] := by simpa using hE
      subst hc
      simp [processImageGroup, sortByRecency, List.insertionSort, regularOf,
        toDeleteOf]
    | false =>
      rw [processImageGroup_eq cfg dryRun deleteOk repoName imageName comps
        hE hm]
      rw [deleteLoop_spec]
  refine ⟨hmain, fun hd => ?_⟩
  rw [hmain, hd]
  simp

/-- Witness for C3 (amended): under `cfgOne` in execute mode where only the
delete of `c1` succeeds, the delete slice is `[v1]` and exactly one record is
appended, for `v1` with rule `one` and `dryRun = false`. -/
theorem audit_records_per_decision_witness :
    (processImageGroup cfgOne false (fun i => i = "c1") "docker-hosted"
        "prod-app" [compV1, compV2]).2.2
      = ((toDeleteOf (Config.GetKeepCount cfgOne "prod-app").1
            (regularOf cfgOne (sortByRecency [compV1, compV2]))).filter
          (fun c => false || (c.id = "c1" : Bool))).map
          (mkRecord "docker-hosted" "prod-app"
            (Config.GetKeepCount cfgOne "prod-app").2.1 false) :=
  (audit_records_per_decision cfgOne false (fun i => i = "c1") "docker-hosted"
    "prod-app" [compV1, compV2] (by decide)).1

/-- Claim C7: a group whose regular component count is at most the keep-count
has an empty delete slice: nothing is deleted and no deletion is recorded. -/
theorem no_deletion_when_group_fits_keep (cfg : Config) (dryRun : Bool)
    (deleteOk : String → Bool) (repoName imageName : String)
    (comps : List Component)
    (hle : (regularOf cfg (sortByRecency comps)).length
      ≤ (cfg.GetKeepCount imageName).1) :
    toDeleteOf (cfg.GetKeepCount imageName).1
        (regularOf cfg (sortByRecency comps)) = []
    ∧ (processImageGroup cfg dryRun deleteOk repoName imageName comps).1 = 0
    ∧ (processImageGroup cfg dryRun deleteOk repoName imageName comps).2.2
      = [] := by
  have hdel : toDeleteOf (cfg.GetKeepCount imageName).1
      (regularOf cfg (sortByRecency comps)) = [] := by
    unfold toDeleteOf
    rw [if_neg (Nat.not_lt.mpr hle)]
  refine ⟨hdel, ?_⟩
  cases hE : comps.isEmpty with
  | true =>
    have hc : comps = [] := by simpa using hE
    subst hc
    simp [processImageGroup]
  | false =>
    cases hM : (cfg.GetKeepCount imageName).2.2 with
    | false =>
      constructor <;> simp [processImageGroup, hE, hM]
    | true =>
      rw [processImageGroup_eq cfg dryRun deleteOk repoName imageName comps
        hE hM]
      rw [hdel]
      constructor <;> rfl

/-- Witness for C7: under `cfgPA` (keep 2) the group `[v2, v1]` has two
regular components, so nothing is deleted. -/
theorem no_deletion_when_group_fits_keep_witness :
    toDeleteOf (Config.GetKeepCount cfgPA "prod-app").1
        (regularOf cfgPA (sortByRecency [compV2, compV1])) = []
    ∧ (processImageGroup cfgPA false (fun _ => true) "docker-hosted"
        "prod-app" [compV2, compV1]).1 = 0
    ∧ (processImageGroup cfgPA false (fun _ => true) "docker-hosted"
        "prod-app" [compV2, compV1]).2.2 = [] :=
  no_deletion_when_group_fits_keep cfgPA false (fun _ => true) "docker-hosted"
    "prod-app" [compV2, compV1] (by decide)

/-! ### Effective recency and the recency sort -/

theorem maxLastModified_le (assets : List Asset) :
    ∀ first : Nat, first ≤ maxLastModified first assets
      ∧ ∀ a ∈ assets, a.lastModified ≤ maxLastModified first assets := by
  induction assets with
  | nil =>
    intro first
    exact ⟨le_refl _, by simp⟩
  | cons a rest ih =>
    intro first
    have hstep : maxLastModified first (a :: rest)
        = maxLastModified
            (if first < a.lastModified then a.lastModified else first) rest :=
      rfl
    constructor
    · rw [hstep]
      refine le_trans ?_ (ih _).1
      split <;> omega
    · intro b hb
      rcases List.mem_cons.mp hb with h | h
      · subst h
        rw [hstep]
        refine le_trans ?_ (ih _).1
        split <;> omega
      · rw [hstep]
        exact (ih _).2 b h

theorem maxLastModified_mem (assets : List Asset) :
    ∀ first : Nat, maxLastModified first assets = first
      ∨ ∃ a ∈ assets, maxLastModified first assets = a.lastModified := by
  induction assets with
  | nil =>
    intro first
    exact Or.inl rfl
  | cons a rest ih =>
    intro first
    have hstep : maxLastModified first (a :: rest)
        = maxLastModified
            (if first < a.lastModified then a.lastModified else first) rest :=
      rfl
    rcases ih (if first < a.lastModified then a.lastModified else first) with
      h | ⟨b, hb, he⟩
    · by_cases hc : first < a.lastModified
      · right
        exact ⟨a, List.mem_cons_self a rest, by rw [hstep, h, if_pos hc]⟩
      · left
        rw [hstep, h, if_neg hc]
    · right
      exact ⟨b, List.mem_cons_of_mem a hb, by rw [hstep, he]⟩

theorem getLastModified_cons (comp : Component) (a : Asset) (rest : List Asset)
    (h : comp.assets = a :: rest) :
    getLastModified comp = maxLastModified a.lastModified (a :: rest) := by
  unfold getLastModified
  rw [h]

/-- Claim C4: a component's effective recency is the maximum `lastModified`
over its assets (the zero timestamp for a component with zero assets, which
is minimal, so it sorts last), and the engine's sort is a permutation of the
group ordered by effective recency descending. -/
theorem recency_and_sort_spec (comp : Component) (comps : List Component) :
    (comp.assets = [] → getLastModified comp = 0)
    ∧ (∀ a ∈ comp.assets, a.lastModified ≤ getLastModified comp)
    ∧ (comp.assets ≠ [] →
        ∃ a ∈ comp.assets, getLastModified comp = a.lastModified)
    ∧ List.Perm (sortByRecency comps) comps
    ∧ List.Sorted recencyOrder (sortByRecency comps) := by
  refine ⟨?_, ?_, ?_, List.perm_insertionSort recencyOrder comps,
    List.sorted_insertionSort recencyOrder comps⟩
  · intro h
    unfold getLastModified
    rw [h]
  · intro a ha
    cases hA : comp.assets with
    | nil => rw [hA] at ha; simp at ha
    | cons b rest =>
      rw [getLastModified_cons comp b rest hA]
      rw [hA] at ha
      exact (maxLastModified_le (b :: rest) b.lastModified).2 a ha
  · intro h
    cases hA : comp.assets with
    | nil => exact absurd hA h
    | cons b rest =>
      rw [getLastModified_cons comp b rest hA]
      rcases maxLastModified_mem (b :: rest) b.lastModified with he | ⟨a, ha, he⟩
      · exact ⟨b, List.mem_cons_self b rest, he⟩
      · exact ⟨a, ha, he⟩

/-- A component with three assets; its recency is the middle asset's 300. -/
def compMulti : Component := mkComp "cm" "prod-app" "vm" [100, 300, 200]

/-- Witness for C4: the zero-asset component has recency 0, `compMulti`'s
recency bounds and attains its assets' timestamps, and the sort of a concrete
group is a sorted permutation. -/
theorem recency_and_sort_spec_witness :
    getLastModified compLatest = 0
    ∧ (∀ a ∈ compMulti.assets, a.lastModified ≤ getLastModified compMulti)
    ∧ (∃ a ∈ compMulti.assets, getLastModified compMulti = a.lastModified)
    ∧ List.Perm (sortByRecency [compV1, compLatest, compV3])
        [compV1, compLatest, compV3]
    ∧ List.Sorted recencyOrder (sortByRecency [compV1, compLatest, compV3]) :=
  ⟨(recency_and_sort_spec compLatest []).1 rfl,
   (recency_and_sort_spec compMulti []).2.1,
   (recency_and_sort_spec compMulti []).2.2.1 (by decide),
   (recency_and_sort_spec compV1 [compV1, compLatest, compV3]).2.2.2.1,
   (recency_and_sort_spec compV1 [compV1, compLatest, compV3]).2.2.2.2⟩

/-! ### Pagination -/

theorem getComponents_ok_chain (front : List ComponentPage)
    (last : ComponentPage) (hfront : ∀ p ∈ front, p.continuationToken ≠ "")
    (hlast : last.continuationToken = "") :
    GetComponents ((front ++ [last]).map Except.ok)
      = .ok (((front ++ [last]).map ComponentPage.items).flatten) := by
  induction front with
  | nil => simp [GetComponents, hlast]
  | cons p front ih =>
    have hp : p.continuationToken ≠ "" := hfront p (List.mem_cons_self p front)
    have hrest : ∀ q ∈ front, q.continuationToken ≠ "" := fun q hq =>
      hfront q (List.mem_cons_of_mem p hq)
    have ih' := ih hrest
    simp only [List.map_append, List.map_cons, List.map_nil] at ih' ⊢
    simp [GetComponents, hp, ih', List.flatten_concat, List.flatten_cons,
      List.append_assoc]

theorem getComponents_error_aborts (front : List ComponentPage) (e : String)
    (rest : List (Except String ComponentPage))
    (hfront : ∀ p ∈ front, p.continuationToken ≠ "") :
    GetComponents (front.map Except.ok ++ Except.error e :: rest)
      = .error e := by
  induction front with
  | nil => rfl
  | cons p front ih =>
    have hp : p.continuationToken ≠ "" := hfront p (List.mem_cons_self p front)
    have hrest : ∀ q ∈ front, q.continuationToken ≠ "" := fun q hq =>
      hfront q (List.mem_cons_of_mem p hq)
    simp [GetComponents, hp, ih hrest]

/-- Claim C5: `GetComponents` follows continuation-token pagination to
completion: over a chain of successful pages whose tokens are nonempty until
a final empty-token page, it returns exactly the concatenation of the pages'
items in page order; and if any page request fails, the whole fetch returns
that error with no partial component list. -/
theorem getComponents_pagination
    (responses : List (Except String ComponentPage)) :
    (∀ (front : List ComponentPage) (last : ComponentPage),
      responses = (front ++ [last]).map Except.ok →
      (∀ p ∈ front, p.continuationToken ≠ "") →
      last.continuationToken = "" →
      GetComponents responses
        = .ok (((front ++ [last]).map ComponentPage.items).flatten))
    ∧ (∀ (front : List ComponentPage) (e : String)
        (rest : List (Except String ComponentPage)),
      responses = front.map Except.ok ++ Except.error e :: rest →
      (∀ p ∈ front, p.continuationToken ≠ "") →
      GetComponents responses = .error e) := by
  constructor
  · intro front last hresp hfront hlast
    rw [hresp]
    exact getComponents_ok_chain front last hfront hlast
  · intro front e rest hresp hfront
    rw [hresp]
    exact getComponents_error_aborts front e rest hfront

def compD1 : Component := mkComp "d1" "dev-app" "v1" [10]

def compD2 : Component := mkComp "d2" "dev-app" "v2" [20]

def pageA : ComponentPage :=
  { items := [compV3, compV2], continuationToken := "t1" }

def pageB : ComponentPage :=
  { items := [compV1, compLatest], continuationToken := "t2" }

def pageC : ComponentPage := { items := [compD1, compD2], continuationToken := "" }

/-- Witness for C5: three chained pages of two items each yield all six items
in page order, and an error on the second page aborts the fetch. -/
theorem getComponents_pagination_witness :
    GetComponents (([pageA, pageB] ++ [pageC]).map Except.ok)
      = .ok ((([pageA, pageB] ++ [pageC]).map ComponentPage.items).flatten)
    ∧ GetComponents
        ([pageA].map Except.ok ++ Except.error "boom" :: [Except.ok pageC])
      = .error "boom" :=
  ⟨(getComponents_pagination (([pageA, pageB] ++ [pageC]).map Except.ok)).1
      [pageA, pageB] pageC rfl (by decide) rfl,
   (getComponents_pagination
      ([pageA].map Except.ok ++ Except.error "boom" :: [Except.ok pageC])).2
      [pageA] "boom" [Except.ok pageC] rfl (by decide)⟩

/-! ### Grouping by image name -/

theorem groupKeys_aux_mem (comps : List Component) :
    ∀ (acc : List String) (k : String),
      k ∈ comps.foldl groupKeysStep acc
        ↔ k ∈ acc ∨ ∃ c ∈ comps, c.name = k := by
  induction comps with
  | nil =>
    intro acc k
    simp
  | cons c rest ih =>
    intro acc k
    rw [List.foldl_cons, ih]
    unfold groupKeysStep
    by_cases hc : c.name ∈ acc
    · rw [if_pos hc]
      constructor
      · rintro (h | ⟨d, hd, he⟩)
        · exact Or.inl h
        · exact Or.inr ⟨d, List.mem_cons_of_mem c hd, he⟩
      · rintro (h | ⟨d, hd, he⟩)
        · exact Or.inl h
        · rcases List.mem_cons.mp hd with h | h
          · exact Or.inl (by rw [← he, h]; exact hc)
          · exact Or.inr ⟨d, h, he⟩
    · rw [if_neg hc]
      constructor
      · rintro (h | ⟨d, hd, he⟩)
        · rcases List.mem_append.mp h with h | h
          · exact Or.inl h
          · exact Or.inr ⟨c, List.mem_cons_self c rest,
              (List.mem_singleton.mp h).symm⟩
        · exact Or.inr ⟨d, List.mem_cons_of_mem c hd, he⟩
      · rintro (h | ⟨d, hd, he⟩)
        · exact Or.inl (List.mem_append_left _ h)
        · rcases List.mem_cons.mp hd with h | h
          · subst h
            exact Or.inl (List.mem_append_right _
              (List.mem_singleton.mpr he.symm))
          · exact Or.inr ⟨d, h, he⟩

theorem groupKeys_aux_nodup (comps : List Component) :
    ∀ acc : List String, acc.Nodup → (comps.foldl groupKeysStep acc).Nodup := by
  induction comps with
  | nil =>
    intro acc h
    exact h
  | cons c rest ih =>
    intro acc h
    rw [List.foldl_cons]
    apply ih
    unfold groupKeysStep
    by_cases hc : c.name ∈ acc
    · rwa [if_pos hc]
    · rw [if_neg hc]
      rw [List.nodup_append]
      exact ⟨h, List.nodup_singleton _, by simpa using hc⟩

theorem groupKeys_nodup (comps : List Component) : (groupKeys comps).Nodup :=
  groupKeys_aux_nodup comps [] List.nodup_nil

theorem groupKeys_mem (comps : List Component) (k : String) :
    k ∈ groupKeys comps ↔ ∃ c ∈ comps, c.name = k := by
  unfold groupKeys
  rw [groupKeys_aux_mem]
  simp

theorem flatten_filter_perm (ks : List String) (l : List Component)
    (hnd : ks.Nodup) (hcov : ∀ c ∈ l, c.name ∈ ks) :
    List.Perm ((ks.map (fun k => l.filter (fun c => c.name = k))).flatten) l := by
  induction ks generalizing l with
  | nil =>
    cases l with
    | nil => simp
    | cons c l => exact absurd (hcov c (List.mem_cons_self c l)) (by simp)
  | cons k ks ih =>
    have hnd' : ks.Nodup := (List.nodup_cons.mp hnd).2
    have hk : k ∉ ks := (List.nodup_cons.mp hnd).1
    have hcov' : ∀ c ∈ l.filter (fun c => !(c.name = k : Bool)),
        c.name ∈ ks := by
      intro c hc
      have hm := List.mem_filter.mp hc
      have h2 : ¬(c.name = k) := by simpa using hm.2
      rcases List.mem_cons.mp (hcov c hm.1) with h | h
      · exact absurd h h2
      · exact h
    have hmapeq : ks.map (fun k' => l.filter (fun c => c.name = k'))
        = ks.map (fun k' =>
            (l.filter (fun c => !(c.name = k : Bool))).filter
              (fun c => c.name = k')) := by
      apply List.map_congr_left
      intro k' hk'
      have hkk : ¬(k' = k) := fun he => hk (he ▸ hk')
      rw [List.filter_filter]
      apply List.filter_congr
      intro c _
      by_cases h : c.name = k'
      · have hck : ¬(c.name = k) := fun hh => hkk (h.symm.trans hh)
        simp [h, hck, hkk]
      · simp [h]
    have h1 : ((k :: ks).map fun k' => l.filter (fun c => c.name = k')).flatten
        = l.filter (fun c => c.name = k)
            ++ (ks.map fun k' => l.filter (fun c => c.name = k')).flatten := by
      simp [List.flatten_cons]
    have h2 : List.Perm
        ((ks.map fun k' => l.filter (fun c => c.name = k')).flatten)
        (l.filter (fun c => !(c.name = k : Bool))) := by
      rw [hmapeq]
      exact ih _ hnd' hcov'
    rw [h1]
    exact (List.Perm.append_left _ h2).trans (List.filter_append_perm _ l)

/-- Claim C9: `groupByImageName` partitions its input exactly: the group keys
are the distinct image names, each key's group is the input components with
that name in input order (a filter of the input), every input component's
name is a key, and the concatenation of all groups is a permutation of the
input — nothing dropped, nothing duplicated. -/
theorem groupByImageName_partitions (components : List Component) :
    (groupByImageName components).map Prod.fst = groupKeys components
    ∧ (groupKeys components).Nodup
    ∧ (∀ k g, (k, g) ∈ groupByImageName components →
        g = components.filter (fun c => c.name = k))
    ∧ (∀ c ∈ components, c.name ∈ groupKeys components)
    ∧ List.Perm ((groupByImageName components).map Prod.snd).flatten
        components := by
  refine ⟨?_, groupKeys_nodup components, ?_, ?_, ?_⟩
  · unfold groupByImageName
    rw [List.map_map]
    exact List.map_id _
  · intro k g hkg
    rcases List.mem_map.mp hkg with ⟨k', _, heq⟩
    have hk : k' = k := congrArg Prod.fst heq
    have hg := congrArg Prod.snd heq
    simp only at hg
    rw [← hg, hk]
  · intro c hc
    exact (groupKeys_mem components c.name).mpr ⟨c, hc, rfl⟩
  · have hmap : (groupByImageName components).map Prod.snd
        = (groupKeys components).map
            (fun k => components.filter (fun c => c.name = k)) := by
      simp [groupByImageName]
    rw [hmap]
    exact flatten_filter_perm (groupKeys components) components
      (groupKeys_nodup components)
      (fun c hc => (groupKeys_mem components c.name).mpr ⟨c, hc, rfl⟩)

/-- Witness for C9: a concrete mixed list groups into `prod-app` and `dev-app`
with the filtered groups and a flattening that permutes the input. -/
theorem groupByImageName_partitions_witness :
    groupByImageName [compV1, compD1, compV2, compD2]
      = [("prod-app", [compV1, compV2]), ("dev-app", [compD1, compD2])]
    ∧ ([compV1, compD1, compV2, compD2].filter
        (fun c => c.name = "prod-app")) = [compV1, compV2]
    ∧ "dev-app" ∈ groupKeys [compV1, compD1, compV2, compD2]
    ∧ List.Perm
        ((groupByImageName [compV1, compD1, compV2, compD2]).map
          Prod.snd).flatten
        [compV1, compD1, compV2, compD2] :=
  ⟨by decide,
   (groupByImageName_partitions [compV1, compD1, compV2, compD2]).2.2.1
      "prod-app" [compV1, compV2] (by decide),
   (groupByImageName_partitions [compV1, compD1, compV2, compD2]).2.2.2.1
      compD1 (by decide),
   (groupByImageName_partitions [compV1, compD1, compV2, compD2]).2.2.2.2⟩

/-! ### Run-level error handling -/

def repoHosted : Repository :=
  { name := "docker-hosted", format := "docker", type := "hosted" }

/-- A world whose only repository fails its component listing. -/
def wSkip : World :=
  { repoList := .ok [repoHosted], componentsOf := fun _ => .error "boom",
    deleteOk := fun _ => true }

/-- Claim C6: `Execute` fails exactly when the repository listing fails; a
repository whose component listing fails contributes nothing (the run
continues as if it were absent); and in execute mode a group's deleted tally
counts exactly the delete-slice items whose delete call succeeds (a single
failure skips that item only). -/
theorem execute_error_iff_repo_listing_fails (cfg : Config) (dryRun : Bool)
    (w : World) :
    ((∃ e, Execute cfg dryRun w = .error e) ↔ ∃ e, w.repoList = .error e)
    ∧ (∀ (repo : Repository) (rest : List Repository) (e : String),
        w.repoList = .ok (repo :: rest) →
        w.componentsOf repo.name = .error e →
        Execute cfg dryRun w
          = Execute cfg dryRun
              { repoList := .ok rest, componentsOf := w.componentsOf,
                deleteOk := w.deleteOk })
    ∧ (∀ (deleteOk : String → Bool) (repoName imageName : String)
        (comps : List Component),
        (cfg.GetKeepCount imageName).2.2 = true →
        (processImageGroup cfg false deleteOk repoName imageName comps).1
          = ((toDeleteOf (cfg.GetKeepCount imageName).1
              (regularOf cfg (sortByRecency comps))).filter
              (fun c => deleteOk c.id)).length) := by
  refine ⟨?_, ?_, ?_⟩
  · cases hrl : w.repoList with
    | error e =>
      constructor
      · intro _
        exact ⟨e, rfl⟩
      · intro _
        refine ⟨"failed to get repositories: " ++ e, ?_⟩
        simp [Execute, GetDockerRepositories, hrl]
    | ok repos =>
      constructor
      · rintro ⟨e, he⟩
        simp [Execute, GetDockerRepositories, hrl] at he
      · rintro ⟨e, he⟩
        exact absurd he (by simp)
  · intro repo rest e hrl hcomp
    unfold Execute GetDockerRepositories
    rw [hrl]
    simp only
    rw [List.filter_cons]
    by_cases hp : (repo.format = "docker" && repo.type = "hosted" : Bool) = true
    · rw [if_pos hp]
      simp only [List.foldl_cons, hcomp]
    · rw [if_neg hp]
  · intro deleteOk repoName imageName comps hm
    cases hE : comps.isEmpty with
    | true =>
      have hc : comps = [] := by simpa using hE
      subst hc
      simp [processImageGroup, sortByRecency, List.insertionSort, regularOf,
        toDeleteOf]
    | false =>
      rw [processImageGroup_eq cfg false deleteOk repoName imageName comps
        hE hm]
      rw [deleteLoop_spec]
      simp

/-- Witness for C6: in a world whose only repository's component listing
fails, the run equals the run with no repositories; and in a concrete group
where only the delete of `c2` would succeed, the deleted tally counts exactly
the successful delete-slice items (here zero, the slice holds only `c1`). -/
theorem execute_error_iff_repo_listing_fails_witness :
    Execute cfgOne false wSkip
      = Execute cfgOne false
          { repoList := .ok [], componentsOf := wSkip.componentsOf,
            deleteOk := wSkip.deleteOk }
    ∧ (processImageGroup cfgOne false (fun i => i = "c2") "docker-hosted"
        "prod-app" [compV1, compV2]).1
      = ((toDeleteOf (Config.GetKeepCount cfgOne "prod-app").1
          (regularOf cfgOne (sortByRecency [compV1, compV2]))).filter
          (fun c => (c.id = "c2" : Bool))).length :=
  ⟨(execute_error_iff_repo_listing_fails cfgOne false wSkip).2.1 repoHosted []
      "boom" rfl rfl,
   (execute_error_iff_repo_listing_fails cfgOne false wSkip).2.2
      (fun i => i = "c2") "docker-hosted" "prod-app" [compV1, compV2]
      (by decide)⟩

/-! ### Determinism of simulate mode up to group-visit order -/

theorem deleteLoop_simulate (deleteOk : String → Bool)
    (repoName imageName ruleName : String) (l : List Component) :
    deleteLoop true deleteOk repoName imageName ruleName l
      = (l.length, l.map (mkRecord repoName imageName ruleName true)) := by
  rw [deleteLoop_spec]
  simp

theorem processImageGroup_simulate (cfg : Config) (deleteOk : String → Bool)
    (repoName imageName : String) (g : List Component) :
    processImageGroup cfg true deleteOk repoName imageName g
      = processImageGroup cfg true (fun _ => true) repoName imageName g := by
  cases hE : g.isEmpty with
  | true =>
    have hg : g = [] := by simpa using hE
    subst hg
    rfl
  | false =>
    cases hM : (cfg.GetKeepCount imageName).2.2 with
    | false => simp [processImageGroup, hE, hM]
    | true =>
      rw [processImageGroup_eq cfg true deleteOk repoName imageName g hE hM,
        processImageGroup_eq cfg true (fun _ => true) repoName imageName g
          hE hM]
      rw [deleteLoop_simulate, deleteLoop_simulate]

theorem processGroups_aux (cfg : Config) (dryRun : Bool)
    (deleteOk : String → Bool) (repoName : String) (comps : List Component) :
    ∀ (order : List String) (a b : Nat) (rs : List DeletionRecord),
      order.foldl
        (fun acc k =>
          let res := processImageGroup cfg dryRun deleteOk repoName k
            (comps.filter (fun comp => comp.name = k))
          (acc.1 + res.1, acc.2.1 + res.2.1, acc.2.2 ++ res.2.2))
        (a, b, rs)
        = (a + (order.map (fun k => (processImageGroup cfg dryRun deleteOk
              repoName k (comps.filter (fun comp => comp.name = k))).1)).sum,
           b + (order.map (fun k => (processImageGroup cfg dryRun deleteOk
              repoName k (comps.filter (fun comp => comp.name = k))).2.1)).sum,
           rs ++ (order.map (fun k => (processImageGroup cfg dryRun deleteOk
              repoName k
              (comps.filter (fun comp => comp.name = k))).2.2)).flatten) := by
  intro order
  induction order with
  | nil =>
    intro a b rs
    simp
  | cons k order ih =>
    intro a b rs
    rw [List.foldl_cons]
    simp only
    rw [ih]
    simp [Nat.add_assoc, List.append_assoc]

theorem processGroups_eq (cfg : Config) (dryRun : Bool)
    (deleteOk : String → Bool) (repoName : String) (comps : List Component)
    (order : List String) :
    processGroups cfg dryRun deleteOk repoName comps order
      = ((order.map (fun k => (processImageGroup cfg dryRun deleteOk repoName k
            (comps.filter (fun comp => comp.name = k))).1)).sum,
         (order.map (fun k => (processImageGroup cfg dryRun deleteOk repoName k
            (comps.filter (fun comp => comp.name = k))).2.1)).sum,
         (order.map (fun k => (processImageGroup cfg dryRun deleteOk repoName k
            (comps.filter (fun comp => comp.name = k))).2.2)).flatten) := by
  unfold processGroups
  rw [processGroups_aux cfg dryRun deleteOk repoName comps order 0 0 []]
  simp

/-- The components of the two images used by the C8 fixtures. -/
def comps8 : List Component := [compV1, compV2, compD1, compD2]

/-- Counterexample to claim C8 as stated: the engine visits image groups in Go
map iteration order, which Go does not fix across runs; over the same
snapshot, two simulate runs that visit the two groups in the two opposite
orders (both permutations of the same key set) emit the same audit records in
different sequences, so the sequence of audit records is not identical across
runs. -/
theorem simulate_record_sequence_not_unique_cex :
    List.Perm ["dev-app", "prod-app"] (groupKeys comps8)
    ∧ (processGroups cfgOne true (fun _ => true) "docker-hosted" comps8
        (groupKeys comps8)).2.2
      ≠ (processGroups cfgOne true (fun _ => true) "docker-hosted" comps8
          ["dev-app", "prod-app"]).2.2 := by
  decide

/-- Claim C8 (amended): simulate mode is deterministic up to the group-visit
order, which Go's map iteration does not fix: two simulate runs over an
identical snapshot, with any two visit orders that are permutations of each
other and any two delete-outcome environments, have identical per-group
keep/delete outcomes (each group's result is a function of the snapshot
alone), identical deleted and kept tallies, and identical audit records up to
reordering across groups (equal as multisets). -/
theorem simulate_deterministic_up_to_order (cfg : Config) (repoName : String)
    (comps : List Component) (deleteOk1 deleteOk2 : String → Bool)
    (order1 order2 : List String) (hperm : List.Perm order1 order2) :
    (∀ imageName g,
      processImageGroup cfg true deleteOk1 repoName imageName g
        = processImageGroup cfg true deleteOk2 repoName imageName g)
    ∧ (processGroups cfg true deleteOk1 repoName comps order1).1
      = (processGroups cfg true deleteOk2 repoName comps order2).1
    ∧ (processGroups cfg true deleteOk1 repoName comps order1).2.1
      = (processGroups cfg true deleteOk2 repoName comps order2).2.1
    ∧ List.Perm (processGroups cfg true deleteOk1 repoName comps order1).2.2
        (processGroups cfg true deleteOk2 repoName comps order2).2.2 := by
  have hind : ∀ imageName g,
      processImageGroup cfg true deleteOk1 repoName imageName g
        = processImageGroup cfg true deleteOk2 repoName imageName g := by
    intro imageName g
    rw [processImageGroup_simulate cfg deleteOk1 repoName imageName g,
      processImageGroup_simulate cfg deleteOk2 repoName imageName g]
  refine ⟨hind, ?_, ?_, ?_⟩
  · rw [processGroups_eq, processGroups_eq]
    have hmc : order1.map (fun k => (processImageGroup cfg true deleteOk1
          repoName k (comps.filter (fun comp => comp.name = k))).1)
        = order1.map (fun k => (processImageGroup cfg true deleteOk2
          repoName k (comps.filter (fun comp => comp.name = k))).1) :=
      List.map_congr_left (fun k _ => by rw [hind])
    rw [hmc]
    exact (hperm.map _).sum_eq
  · rw [processGroups_eq, processGroups_eq]
    have hmc : order1.map (fun k => (processImageGroup cfg true deleteOk1
          repoName k (comps.filter (fun comp => comp.name = k))).2.1)
        = order1.map (fun k => (processImageGroup cfg true deleteOk2
          repoName k (comps.filter (fun comp => comp.name = k))).2.1) :=
      List.map_congr_left (fun k _ => by rw [hind])
    rw [hmc]
    exact (hperm.map _).sum_eq
  · rw [processGroups_eq, processGroups_eq]
    have hmc : order1.map (fun k => (processImageGroup cfg true deleteOk1
          repoName k (comps.filter (fun comp => comp.name = k))).2.2)
        = order1.map (fun k => (processImageGroup cfg true deleteOk2
          repoName k (comps.filter (fun comp => comp.name = k))).2.2) :=
      List.map_congr_left (fun k _ => by rw [hind])
    rw [hmc]
    exact (hperm.map _).flatten

/-- Witness for C8 (amended): two simulate runs over `comps8`, one visiting
the groups in first-appearance order with every delete succeeding, the other
in the opposite order with every delete failing, agree on a group's outcome,
on both tallies, and on the audit records as multisets. -/
theorem simulate_deterministic_up_to_order_witness :
    processImageGroup cfgOne true (fun _ => true) "docker-hosted" "prod-app"
        [compV1, compV2]
      = processImageGroup cfgOne true (fun _ => false) "docker-hosted"
          "prod-app" [compV1, compV2]
    ∧ (processGroups cfgOne true (fun _ => true) "docker-hosted" comps8
        (groupKeys comps8)).1
      = (processGroups cfgOne true (fun _ => false) "docker-hosted" comps8
          ["dev-app", "prod-app"]).1
    ∧ (processGroups cfgOne true (fun _ => true) "docker-hosted" comps8
        (groupKeys comps8)).2.1
      = (processGroups cfgOne true (fun _ => false) "docker-hosted" comps8
          ["dev-app", "prod-app"]).2.1
    ∧ List.Perm
        (processGroups cfgOne true (fun _ => true) "docker-hosted" comps8
          (groupKeys comps8)).2.2
        (processGroups cfgOne true (fun _ => false) "docker-hosted" comps8
          ["dev-app", "prod-app"]).2.2 :=
  ⟨(simulate_deterministic_up_to_order cfgOne "docker-hosted" comps8
      (fun _ => true) (fun _ => false) (groupKeys comps8)
      ["dev-app", "prod-app"] (by decide)).1 "prod-app" [compV1, compV2],
   (simulate_deterministic_up_to_order cfgOne "docker-hosted" comps8
      (fun _ => true) (fun _ => false) (groupKeys comps8)
      ["dev-app", "prod-app"] (by decide)).2.1,
   (simulate_deterministic_up_to_order cfgOne "docker-hosted" comps8
      (fun _ => true) (fun _ => false) (groupKeys comps8)
      ["dev-app", "prod-app"] (by decide)).2.2.1,
   (simulate_deterministic_up_to_order cfgOne "docker-hosted" comps8
      (fun _ => true) (fun _ => false) (groupKeys comps8)
      ["dev-app", "prod-app"] (by decide)).2.2.2⟩

end NexusRetention
